import Mathlib

/-!
Verification of the Lorc JSON validator.

The source program (src/main.go) is a streaming JSON validator: a lexer turns
a character stream into tokens, and a recursive-descent parser checks that the
token stream is derivable from the JSON grammar rooted at an object.  A second
source file (src/unnamed/part_000) holds a heuristic checker that inspects only
a file's first and last bytes.

Modelling conventions:
- The byte/rune stream is a `List Char`.  `bufio.Reader.ReadRune` over an
  in-memory stream can fail only with a clean end-of-stream, so the lexer's
  carried `err error` field is modelled as a `Bool` (`true` iff `io.EOF` was
  observed).  `readChar` sets `char` to the NUL rune and `err` on failure,
  exactly as the Go code does.
- Go's `unicode.IsDigit` / `unicode.IsLetter` accept some non-ASCII runes as
  well; every input mentioned by the specification is ASCII, and the model
  restricts these predicates to their ASCII part.
- The lexer loops (`skipWhitespace`, string/number/identifier scanning) are
  written with the remaining input as the structural recursion argument; the
  final loop iteration that merely observes end-of-stream is unrolled into the
  base cases so that each equation mirrors one pass of the Go loop body.
- The parser's mutual recursion (`ParseObject` / `parseArray` / `parseValue`,
  plus the member/element loops inside the two bracketed productions) is
  expressed as one function `parseGo` over a production selector, with a fuel
  parameter bounding the recursion depth; the Go code has no such bound (its
  recursion is limited only by the machine stack).  The driver `runChars`
  supplies fuel `2 * length + 2`, which is proved sufficient for every
  well-formed document below, and every error path relevant to the claims is
  reached long before the fuel could run out.
-/

/-- NUL rune: the value Go's `readChar` stores into `l.char` on a failed read. -/
def nulChar : Char := Char.ofNat 0

/-- The left-brace character. -/
def charLBrace : Char := Char.ofNat 123

/-- The right-brace character. -/
def charRBrace : Char := Char.ofNat 125

/-- The single-quote character, used when assembling Go error messages. -/
def charQuote : Char := Char.ofNat 39

/-- Wrap a string in single quotes, as Go's format directive does in the
parser error messages. -/
def quoted (s : String) : String :=
  String.singleton charQuote ++ s ++ String.singleton charQuote

/-- Whitespace characters skipped by the lexer (src/main.go `skipWhitespace`). -/
def isWs (c : Char) : Bool :=
  c == ' ' || c == '\t' || c == '\n' || c == '\r'

/-- ASCII decimal digit (the ASCII part of Go's `unicode.IsDigit`). -/
def isDigitA (c : Char) : Bool :=
  48 ≤ c.toNat && c.toNat ≤ 57

/-- ASCII letter (the ASCII part of Go's `unicode.IsLetter`). -/
def isLetterA (c : Char) : Bool :=
  (65 ≤ c.toNat && c.toNat ≤ 90) || (97 ≤ c.toNat && c.toNat ≤ 122)

/-- Token kinds, from the `TokenType` constants in src/main.go. -/
inductive TokenType where
  | Error
  | LeftBrace
  | RightBrace
  | LeftBracket
  | RightBracket
  | String
  | Number
  | Boolean
  | Null
  | Colon
  | Comma
  | EOF
deriving DecidableEq

/-- A token: kind plus literal text (src/main.go `Token`). -/
structure Token where
  type : TokenType
  literal : String
deriving DecidableEq

/-- Lexer state: remaining input, current rune, and the carried read error
(`true` iff `io.EOF` has been observed), matching src/main.go `Lexer`. -/
structure Lexer where
  input : List Char
  char : Char
  err : Bool
deriving DecidableEq

/-- src/main.go `readChar`: load the next rune; on end of stream set the
current rune to NUL and record the error.  A successful read leaves the carried
error untouched, exactly as in the Go code. -/
def readChar (l : Lexer) : Lexer :=
  match l.input with
  | [] => ⟨[], nulChar, true⟩
  | c :: rest => ⟨rest, c, l.err⟩

/-- Body of the `skipWhitespace` loop: the current rune and error are passed
explicitly and the remaining input drives the recursion.  The empty-input case
is the unrolled final iteration in which `readChar` observes end-of-stream. -/
def skipWsGo (ch : Char) (e : Bool) : List Char → Lexer
  | [] => if isWs ch then ⟨[], nulChar, true⟩ else ⟨[], ch, e⟩
  | c :: rest => if isWs ch then skipWsGo c e rest else ⟨c :: rest, ch, e⟩

/-- src/main.go `skipWhitespace`. -/
def skipWhitespace (l : Lexer) : Lexer :=
  skipWsGo l.char l.err l.input

/-- Escape decoding table from the `switch` in src/main.go `readString`. -/
def escDecode (c : Char) : Option Char :=
  if c = '"' then some '"'
  else if c = '\\' then some '\\'
  else if c = '/' then some '/'
  else if c = 'b' then some (Char.ofNat 8)
  else if c = 'f' then some (Char.ofNat 12)
  else if c = 'n' then some (Char.ofNat 10)
  else if c = 'r' then some (Char.ofNat 13)
  else if c = 't' then some (Char.ofNat 9)
  else none

/-- Body of the `readString` loop (condition `l.char != '"' && l.err == nil`).
Escape handling, the control-character check, the unterminated-string check
after the loop, and the final quote skip all follow src/main.go lines 63-101.
The base cases unroll the iteration in which `readChar` hits end-of-stream. -/
def readStrGo (acc : List Char) (ch : Char) (e : Bool) :
    List Char → Except String String × Lexer
  | [] =>
    if ch ≠ '"' ∧ e = false then
      if ch = '\\' then
        (.error (("invalid escape sequence: \\") ++ String.singleton nulChar),
          ⟨[], nulChar, true⟩)
      else if ch.toNat < 32 then
        (.error (("invalid control character in string: ") ++ toString ch.toNat),
          ⟨[], ch, e⟩)
      else
        (.error ("unterminated string"), ⟨[], nulChar, true⟩)
    else
      if e = true then (.error ("unterminated string"), ⟨[], ch, e⟩)
      else (.ok (String.mk acc), ⟨[], nulChar, true⟩)
  | c :: rest =>
    if ch ≠ '"' ∧ e = false then
      if ch = '\\' then
        match escDecode c with
        | none =>
          (.error (("invalid escape sequence: \\") ++ String.singleton c),
            ⟨rest, c, e⟩)
        | some d =>
          match rest with
          | [] => (.error ("unterminated string"), ⟨[], nulChar, true⟩)
          | c2 :: rest2 => readStrGo (acc ++ [d]) c2 e rest2
      else if ch.toNat < 32 then
        (.error (("invalid control character in string: ") ++ toString ch.toNat),
          ⟨c :: rest, ch, e⟩)
      else readStrGo (acc ++ [ch]) c e rest
    else
      if e = true then (.error ("unterminated string"), ⟨c :: rest, ch, e⟩)
      else (.ok (String.mk acc), ⟨rest, c, e⟩)

/-- src/main.go `readString`: skip the opening quote, then run the loop. -/
def readString (l : Lexer) : Except String String × Lexer :=
  let l1 := readChar l
  readStrGo [] l1.char l1.err l1.input

/-- Body of the digit-run loops in src/main.go `readNumber`
(condition `l.err == nil && unicode.IsDigit(l.char)`). -/
def digitsGo (ch : Char) (e : Bool) : List Char → List Char × Lexer
  | [] =>
    if e = false && isDigitA ch then ([ch], ⟨[], nulChar, true⟩)
    else ([], ⟨[], ch, e⟩)
  | c :: rest =>
    if e = false && isDigitA ch then
      let r := digitsGo c e rest
      (ch :: r.1, r.2)
    else ([], ⟨c :: rest, ch, e⟩)

/-- The leading-minus block of src/main.go `readNumber` (lines 106-110). -/
def numMinus (l : Lexer) : List Char × Lexer :=
  if l.char = '-' then ([l.char], readChar l) else ([], l)

/-- The decimal-point block of src/main.go `readNumber` (lines 118-128):
note the source checks only `l.char == '.'`, without consulting the carried
error. -/
def numFrac (l2 : Lexer) : List Char × Lexer :=
  if l2.char = '.' then
    let l2b := readChar l2
    let d2 := digitsGo l2b.char l2b.err l2b.input
    ('.' :: d2.1, d2.2)
  else ([], l2)

/-- The exponent block of src/main.go `readNumber` (lines 130-146): an `e` or
`E`, an optional sign, then a digit run. -/
def numExp (l3 : Lexer) : List Char × Lexer :=
  if l3.char = 'e' ∨ l3.char = 'E' then
    let l3b := readChar l3
    let sg : List Char × Lexer :=
      if l3b.char = '+' ∨ l3b.char = '-' then ([l3b.char], readChar l3b)
      else ([], l3b)
    let d3 := digitsGo sg.2.char sg.2.err sg.2.input
    (l3.char :: (sg.1 ++ d3.1), d3.2)
  else ([], l3)

/-- src/main.go `readNumber`: optional minus, integer digits, optional
fraction, optional exponent with optional sign, assembled from the phase
blocks above in source order.  The scanner is greedy and performs no shape
validation; it returns whatever it accumulated. -/
def readNumber (l : Lexer) : String × Lexer :=
  let s0 := numMinus l
  let d1 := digitsGo s0.2.char s0.2.err s0.2.input
  let s2 := numFrac d1.2
  let s3 := numExp s2.2
  (String.mk (s0.1 ++ d1.1 ++ s2.1 ++ s3.1), s3.2)

/-- Body of the src/main.go `readIdentifier` loop
(condition `l.err == nil && (unicode.IsLetter(l.char) || l.char == '_')`). -/
def identGo (ch : Char) (e : Bool) : List Char → List Char × Lexer
  | [] =>
    if e = false && (isLetterA ch || ch == '_') then ([ch], ⟨[], nulChar, true⟩)
    else ([], ⟨[], ch, e⟩)
  | c :: rest =>
    if e = false && (isLetterA ch || ch == '_') then
      let r := identGo c e rest
      (ch :: r.1, r.2)
    else ([], ⟨c :: rest, ch, e⟩)

/-- src/main.go `readIdentifier`. -/
def readIdentifier (l : Lexer) : String × Lexer :=
  let r := identGo l.char l.err l.input
  (String.mk r.1, r.2)

/-- src/main.go `NextToken`: skip whitespace, report end of input once the
carried error is set, otherwise classify the current rune.  The `switch`
cases appear in the source order; the default case consumes nothing. -/
def NextToken (l0 : Lexer) : Token × Lexer :=
  let l := skipWhitespace l0
  if l.err = true then (⟨.EOF, ""⟩, l)
  else if l.char = charLBrace then
    (⟨.LeftBrace, String.singleton l.char⟩, readChar l)
  else if l.char = charRBrace then
    (⟨.RightBrace, String.singleton l.char⟩, readChar l)
  else if l.char = '[' then
    (⟨.LeftBracket, String.singleton l.char⟩, readChar l)
  else if l.char = ']' then
    (⟨.RightBracket, String.singleton l.char⟩, readChar l)
  else if l.char = ':' then
    (⟨.Colon, String.singleton l.char⟩, readChar l)
  else if l.char = ',' then
    (⟨.Comma, String.singleton l.char⟩, readChar l)
  else if l.char = '"' then
    let r := readString l
    match r.1 with
    | .error msg => (⟨.Error, msg⟩, r.2)
    | .ok str => (⟨.String, str⟩, r.2)
  else if isDigitA l.char || l.char = '-' then
    let r := readNumber l
    (⟨.Number, r.1⟩, r.2)
  else if isLetterA l.char then
    let r := readIdentifier l
    if r.1 = ("true") ∨ r.1 = ("false") then (⟨.Boolean, r.1⟩, r.2)
    else if r.1 = ("null") then (⟨.Null, r.1⟩, r.2)
    else (⟨.Error, ("invalid identifier: ") ++ r.1⟩, r.2)
  else (⟨.Error, String.singleton l.char⟩, l)

/-- src/main.go `NewLexer`: fresh state over the input, then one `readChar`. -/
def NewLexer (cs : List Char) : Lexer :=
  readChar ⟨cs, nulChar, false⟩

/-- Parser state: the lexer plus the one-token lookahead (src/main.go `Parser`). -/
structure Parser where
  lexer : Lexer
  token : Token
deriving DecidableEq

/-- src/main.go `Parser.nextToken`: pull one token from the lexer. -/
def nextTokenP (p : Parser) : Parser :=
  let r := NextToken p.lexer
  ⟨r.2, r.1⟩

/-- src/main.go `NewParser`: load the first lookahead token. -/
def NewParser (l : Lexer) : Parser :=
  let r := NextToken l
  ⟨r.2, r.1⟩

/-- Selector for the mutually recursive grammar productions of the parser:
`value`, `object`, `array` are the three Go methods, and `objectLoop` /
`arrayLoop` are the member and element loops inside `ParseObject` and
`parseArray`. -/
inductive PKind where
  | value
  | object
  | objectLoop
  | array
  | arrayLoop

/-- The recursive-descent parser of src/main.go (`parseValue`, `ParseObject`,
`parseArray`), with a fuel parameter bounding the recursion depth.  Each
equation transcribes the corresponding Go method body; the two loop selectors
transcribe the `for` loops.  The Go source checks `p.token.Type == TokenEOF`
after the closing brace of an object but returns nil in both branches, so the
model returns success there unconditionally, preserving the source's
permissiveness about trailing content. -/
def parseGo : Nat → PKind → Parser → Except String Parser
  | 0, _, _ => .error ("recursion limit exceeded")
  | n + 1, .value, p =>
    match p.token.type with
    | .String => .ok (nextTokenP p)
    | .Number => .ok (nextTokenP p)
    | .Boolean => .ok (nextTokenP p)
    | .Null => .ok (nextTokenP p)
    | .LeftBrace => parseGo n .object p
    | .LeftBracket => parseGo n .array p
    | _ => .error (("expected value, got ") ++ p.token.literal)
  | n + 1, .object, p =>
    if p.token.type ≠ TokenType.LeftBrace then
      .error (("expected ") ++ quoted (String.singleton charLBrace) ++
        (", got ") ++ quoted p.token.literal)
    else
      let p1 := nextTokenP p
      if p1.token.type = TokenType.RightBrace then .ok (nextTokenP p1)
      else parseGo n .objectLoop p1
  | n + 1, .objectLoop, p =>
    if p.token.type ≠ TokenType.String then
      .error (("expected string key, got ") ++ p.token.literal)
    else
      let p1 := nextTokenP p
      if p1.token.type ≠ TokenType.Colon then
        .error (("expected ") ++ quoted (":") ++ (", got ") ++
          quoted p1.token.literal)
      else
        match parseGo n .value (nextTokenP p1) with
        | .error e => .error (("invalid value: ") ++ e)
        | .ok p2 =>
          if p2.token.type = TokenType.RightBrace then .ok (nextTokenP p2)
          else if p2.token.type ≠ TokenType.Comma then
            .error (("expected ") ++ quoted (",") ++ (" or ") ++
              quoted (String.singleton charRBrace) ++ (", got ") ++
              quoted p2.token.literal)
          else parseGo n .objectLoop (nextTokenP p2)
  | n + 1, .array, p =>
    let p1 := nextTokenP p
    if p1.token.type = TokenType.RightBracket then .ok (nextTokenP p1)
    else parseGo n .arrayLoop p1
  | n + 1, .arrayLoop, p =>
    match parseGo n .value p with
    | .error e => .error e
    | .ok p1 =>
      if p1.token.type = TokenType.RightBracket then .ok (nextTokenP p1)
      else if p1.token.type ≠ TokenType.Comma then
        .error (("expected ") ++ quoted (",") ++ (" or ") ++ quoted ("]") ++
          (", got ") ++ quoted p1.token.literal)
      else parseGo n .arrayLoop (nextTokenP p1)

/-- src/main.go `Parser.parseValue`. -/
def parseValue (n : Nat) (p : Parser) : Except String Parser :=
  parseGo n .value p

/-- src/main.go `Parser.ParseObject`: the public grammar entry point. -/
def ParseObject (n : Nat) (p : Parser) : Except String Parser :=
  parseGo n .object p

/-- src/main.go `Parser.parseArray`. -/
def parseArray (n : Nat) (p : Parser) : Except String Parser :=
  parseGo n .array p

/-- One whole validation run over a character list, as `main` performs it:
build the lexer and parser, call `ParseObject`, and keep only the verdict.
The fuel `2 * length + 2` is proved sufficient for every well-formed document
(`fuel_le_two_mul_len` below). -/
def runChars (cs : List Char) : Except String Unit :=
  match ParseObject (2 * cs.length + 2) (NewParser (NewLexer cs)) with
  | .ok _ => .ok ()
  | .error e => .error e

/-- Validation of a Lean string (its character data fed to the lexer). -/
def validate (s : String) : Except String Unit :=
  runChars s.data

/-- src/unnamed/part_000 `validJSON`, absent I/O errors: the file content is
non-empty, its first byte is a left brace, and its last byte is a right brace.
No interior byte is inspected. -/
def validJSON (content : List Char) : Bool :=
  if content.length = 0 then false
  else if content.head? ≠ some charLBrace then false
  else if content.getLast? ≠ some charRBrace then false
  else true

/-! ### Generative grammar for well-formed JSON documents

The following inductive types generate exactly the documents described by the
grammar in §4.1 of the specification: objects and arrays with arbitrary
nesting, string literals built from safe characters and the eight supported
escapes, and numbers of the shape
minus? digits ( dot digits )? ( e-or-E sign? digits )?.
`renderVal` prints a document back to its source text (compact, no
whitespace); the completeness theorems below show the parser accepts every
rendered well-formed document. -/

/-- One source item of a string literal: a plain character or an escape
sequence backslash-`c`. -/
inductive SItem where
  | raw (c : Char)
  | esc (c : Char)

/-- A raw item must not be a control character, a quote, or a backslash; an
escape must be one of the eight supported escape characters. -/
def validSItem : SItem → Bool
  | .raw c => (32 ≤ c.toNat) && (c ≠ '"') && (c ≠ '\\')
  | .esc c => (escDecode c).isSome

/-- Source text of one string item. -/
def renderSItem : SItem → List Char
  | .raw c => [c]
  | .esc c => ['\\', c]

/-- Decoded character of one string item. -/
def decodeSItem : SItem → Char
  | .raw c => c
  | .esc c => (escDecode c).getD nulChar

/-- Source text of a string body. -/
def renderItems : List SItem → List Char
  | [] => []
  | i :: is => renderSItem i ++ renderItems is

/-- Decoded text of a string body. -/
def decodeItems : List SItem → List Char
  | [] => []
  | i :: is => decodeSItem i :: decodeItems is

/-- All items of a string body are valid. -/
def validItems : List SItem → Bool
  | [] => true
  | i :: is => validSItem i && validItems is

/-- Exponent part of a number literal: `e` or `E`, an optional sign, digits. -/
structure ExpPart where
  echar : Char
  sign : Option Char
  digits : List Char

/-- A number literal: optional minus, integer digits, optional fraction
digits, optional exponent. -/
structure JNum where
  neg : Bool
  intPart : List Char
  fracPart : Option (List Char)
  expPart : Option ExpPart

/-- Every character of the run is an ASCII digit. -/
def allDigits (ds : List Char) : Bool := ds.all isDigitA

/-- The number matches the grammar of §4.1: a non-empty integer part, a
non-empty fraction part when present, and a well-formed exponent when
present. -/
def validNum (n : JNum) : Bool :=
  (n.intPart ≠ []) && allDigits n.intPart &&
  (match n.fracPart with
   | none => true
   | some f => (f ≠ []) && allDigits f) &&
  (match n.expPart with
   | none => true
   | some e =>
     (e.echar = 'e' ∨ e.echar = 'E') &&
     (match e.sign with | none => true | some s => s = '+' ∨ s = '-') &&
     (e.digits ≠ []) && allDigits e.digits)

/-- Source text of a number literal. -/
def renderNum (n : JNum) : List Char :=
  (if n.neg then ['-'] else []) ++ n.intPart ++
  (match n.fracPart with | none => [] | some f => '.' :: f) ++
  (match n.expPart with
   | none => []
   | some e =>
     e.echar :: ((match e.sign with | none => [] | some s => [s]) ++ e.digits))

mutual
/-- A JSON value. -/
inductive JVal where
  | str (items : List SItem)
  | num (n : JNum)
  | jbool (b : Bool)
  | jnull
  | obj (members : JMembers)
  | arr (elems : JElems)

/-- The member list of a JSON object. -/
inductive JMembers where
  | mnil
  | mcons (key : List SItem) (v : JVal) (rest : JMembers)

/-- The element list of a JSON array. -/
inductive JElems where
  | enil
  | econs (v : JVal) (rest : JElems)
end

mutual
/-- Source text of a value. -/
def renderVal : JVal → List Char
  | .str items => '"' :: (renderItems items ++ ['"'])
  | .num n => renderNum n
  | .jbool true => ['t', 'r', 'u', 'e']
  | .jbool false => ['f', 'a', 'l', 's', 'e']
  | .jnull => ['n', 'u', 'l', 'l']
  | .obj m => charLBrace :: (renderMembers m ++ [charRBrace])
  | .arr e => '[' :: (renderElems e ++ [']'])

/-- Source text of an object's members (without the surrounding braces),
comma-separated. -/
def renderMembers : JMembers → List Char
  | .mnil => []
  | .mcons key v rest =>
    '"' :: (renderItems key ++ ('"' :: ':' :: (renderVal v ++
      (match rest with
       | .mnil => []
       | .mcons k2 v2 r2 => ',' :: renderMembers (.mcons k2 v2 r2)))))

/-- Source text of an array's elements (without the surrounding brackets),
comma-separated. -/
def renderElems : JElems → List Char
  | .enil => []
  | .econs v rest =>
    renderVal v ++
      (match rest with
       | .enil => []
       | .econs v2 r2 => ',' :: renderElems (.econs v2 r2))
end

/-- The text that follows the first member in an object body: empty, or a
comma and the remaining members. -/
def renderMTail : JMembers → List Char
  | .mnil => []
  | .mcons key v rest => ',' :: renderMembers (.mcons key v rest)

/-- The text that follows the first element in an array body: empty, or a
comma and the remaining elements. -/
def renderETail : JElems → List Char
  | .enil => []
  | .econs v rest => ',' :: renderElems (.econs v rest)

mutual
/-- Well-formedness of a value. -/
def validVal : JVal → Bool
  | .str items => validItems items
  | .num n => validNum n
  | .jbool _ => true
  | .jnull => true
  | .obj m => validMembers m
  | .arr e => validElems e

/-- Well-formedness of an object's members. -/
def validMembers : JMembers → Bool
  | .mnil => true
  | .mcons key v rest => validItems key && validVal v && validMembers rest

/-- Well-formedness of an array's elements. -/
def validElems : JElems → Bool
  | .enil => true
  | .econs v rest => validVal v && validElems rest
end

mutual
/-- Recursion depth (fuel) needed by `parseValue` on a rendered value. -/
def vFuel : JVal → Nat
  | .str _ => 1
  | .num _ => 1
  | .jbool _ => 1
  | .jnull => 1
  | .obj m => 2 + mFuel m
  | .arr e => 2 + eFuel e

/-- Fuel needed by the member loop on rendered members. -/
def mFuel : JMembers → Nat
  | .mnil => 0
  | .mcons _ v rest => 1 + vFuel v + mFuel rest

/-- Fuel needed by the element loop on rendered elements. -/
def eFuel : JElems → Nat
  | .enil => 0
  | .econs v rest => 1 + vFuel v + eFuel rest
end

/-- The lexer state whose remaining text is `cs`: the head of `cs` is the
current rune; on empty text the end-of-stream marker is current.  Every state
reachable from `NewLexer` has this shape. -/
def lexAt : List Char → Lexer
  | [] => ⟨[], nulChar, true⟩
  | c :: rest => ⟨rest, c, false⟩

/-- The parser state holding the first token of `cs` as lookahead, with the
lexer positioned after that token. -/
def parserAt (cs : List Char) : Parser := NewParser (lexAt cs)

/-- Characters that may legally follow a rendered value inside a document:
nothing, or a comma, closing brace, or closing bracket.  This keeps the greedy
number/identifier scanners from consuming past the rendered value. -/
def Follow : List Char → Prop
  | [] => True
  | c :: _ => c = ',' ∨ c = charRBrace ∨ c = ']'

/-- The remaining text does not begin with an ASCII digit. -/
def headNotDigit : List Char → Prop
  | [] => True
  | c :: _ => isDigitA c = false

/-- The remaining text cannot extend a number literal. -/
def headNotNum : List Char → Prop
  | [] => True
  | c :: _ => isDigitA c = false ∧ c ≠ '.' ∧ c ≠ 'e' ∧ c ≠ 'E'

/-- The remaining text cannot extend an identifier. -/
def headNotIdent : List Char → Prop
  | [] => True
  | c :: _ => isLetterA c = false ∧ c ≠ '_'

/-! ### Basic state lemmas -/

/-- A fresh lexer is positioned at the start of its input. -/
theorem newLexer_lexAt (cs : List Char) : NewLexer cs = lexAt cs := by
  cases cs <;> rfl

/-- `readChar` from an error-free state moves to the next position. -/
theorem readChar_false (ch : Char) (cs : List Char) :
    readChar ⟨cs, ch, false⟩ = lexAt cs := by
  cases cs <;> rfl

/-- Advancing the parser from a positioned state loads the next token. -/
theorem nextTokenP_at (cs : List Char) (t : Token) :
    nextTokenP ⟨lexAt cs, t⟩ = parserAt cs := rfl

/-- A character is distinct from another whose code point differs. -/
theorem char_ne_of_toNat (c d : Char) (h : c.toNat ≠ d.toNat) : c ≠ d :=
  fun hc => h (congrArg Char.toNat hc)

/-- Skipping whitespace is the identity when the current rune is not
whitespace. -/
theorem skipWs_noop (c : Char) (cs : List Char) (h : isWs c = false) :
    skipWhitespace (lexAt (c :: cs)) = lexAt (c :: cs) := by
  cases cs <;> simp [skipWhitespace, lexAt, skipWsGo, h]

/-- An ASCII digit is not whitespace, not a structural character, not a quote,
not a minus, not a dot, not a sign, and not an exponent letter. -/
theorem digit_facts (c : Char) (h : isDigitA c = true) :
    isWs c = false ∧ c ≠ charLBrace ∧ c ≠ charRBrace ∧ c ≠ '[' ∧ c ≠ ']' ∧
      c ≠ ':' ∧ c ≠ ',' ∧ c ≠ '"' ∧ c ≠ '-' ∧ c ≠ '.' ∧ c ≠ '+' := by
  simp only [isDigitA, Bool.and_eq_true, decide_eq_true_eq] at h
  refine ⟨?_, ?_, ?_, ?_, ?_, ?_, ?_, ?_, ?_, ?_, ?_⟩
  · simp only [isWs, Bool.or_eq_false_iff, beq_eq_false_iff_ne]
    refine ⟨⟨⟨?_, ?_⟩, ?_⟩, ?_⟩ <;> (intro hc; subst hc; revert h; decide)
  all_goals (intro hc; subst hc; revert h; decide)

/-- An ASCII letter is not whitespace, not a structural character, not a
quote, not a digit, and not a minus. -/
theorem letter_facts (c : Char) (h : isLetterA c = true) :
    isWs c = false ∧ c ≠ charLBrace ∧ c ≠ charRBrace ∧ c ≠ '[' ∧ c ≠ ']' ∧
      c ≠ ':' ∧ c ≠ ',' ∧ c ≠ '"' ∧ c ≠ '-' ∧ isDigitA c = false := by
  simp only [isLetterA, Bool.or_eq_true, Bool.and_eq_true, decide_eq_true_eq] at h
  refine ⟨?_, ?_, ?_, ?_, ?_, ?_, ?_, ?_, ?_, ?_⟩
  · simp only [isWs, Bool.or_eq_false_iff, beq_eq_false_iff_ne]
    refine ⟨⟨⟨?_, ?_⟩, ?_⟩, ?_⟩ <;>
      (intro hc; subst hc; rcases h with h | h <;> revert h <;> decide)
  · intro hc; subst hc; rcases h with h | h <;> revert h <;> decide
  · intro hc; subst hc; rcases h with h | h <;> revert h <;> decide
  · intro hc; subst hc; rcases h with h | h <;> revert h <;> decide
  · intro hc; subst hc; rcases h with h | h <;> revert h <;> decide
  · intro hc; subst hc; rcases h with h | h <;> revert h <;> decide
  · intro hc; subst hc; rcases h with h | h <;> revert h <;> decide
  · intro hc; subst hc; rcases h with h | h <;> revert h <;> decide
  · intro hc; subst hc; rcases h with h | h <;> revert h <;> decide
  · rcases h with ⟨h1, h2⟩ | ⟨h1, h2⟩ <;>
      (simp only [isDigitA, Bool.and_eq_false_iff, decide_eq_false_iff_not]; omega)

/-! ### Scanning-loop lemmas: each loop consumes exactly its rendered text -/

/-- The digit loop consumes a run of digits and stops at the first
non-digit. -/
theorem digitsGo_at (ds rest : List Char) (hd : allDigits ds = true) (hr : headNotDigit rest) :
    digitsGo (lexAt (ds ++ rest)).char (lexAt (ds ++ rest)).err
      (lexAt (ds ++ rest)).input = (ds, lexAt rest) := by
  induction ds with
  | nil =>
    cases rest with
    | nil => rfl
    | cons c r =>
      simp only [headNotDigit] at hr
      cases r <;> simp [lexAt, digitsGo, hr]
  | cons d ds ih =>
    simp only [allDigits, List.all_cons, Bool.and_eq_true] at hd
    obtain ⟨hd1, hd2⟩ := hd
    have ih2 := ih (by simpa [allDigits] using hd2)
    cases hds : ds ++ rest with
    | nil =>
      obtain ⟨h1, h2⟩ := List.append_eq_nil.mp hds
      subst h1; subst h2
      simp [lexAt, digitsGo, hd1]
    | cons c2 r2 =>
      rw [hds] at ih2
      simp only [lexAt] at ih2 ⊢
      simp only [List.cons_append, hds]
      simp [digitsGo, hd1, ih2]

/-- The identifier loop consumes a run of letters and underscores and stops at
the first character outside that set. -/
theorem identGo_at (w rest : List Char)
    (hw : ∀ x ∈ w, isLetterA x = true ∨ x = '_') (hr : headNotIdent rest) :
    identGo (lexAt (w ++ rest)).char (lexAt (w ++ rest)).err
      (lexAt (w ++ rest)).input = (w, lexAt rest) := by
  induction w with
  | nil =>
    cases rest with
    | nil => rfl
    | cons c r =>
      simp only [headNotIdent] at hr
      cases r <;> simp [lexAt, identGo, hr.1, hr.2]
  | cons d w ih =>
    have hd1 : (isLetterA d || d == '_') = true := by
      rcases hw d (by simp) with h | h
      · simp [h]
      · simp [h]
    have ih2 := ih (fun x hx => hw x (by simp [hx]))
    cases hds : w ++ rest with
    | nil =>
      obtain ⟨h1, h2⟩ := List.append_eq_nil.mp hds
      subst h1; subst h2
      simp [lexAt, identGo, hd1]
    | cons c2 r2 =>
      rw [hds] at ih2
      simp only [lexAt] at ih2 ⊢
      simp only [List.cons_append, hds]
      simp [identGo, hd1, ih2]

/-- The string loop consumes the rendered body of a valid string literal plus
its closing quote, decoding escapes into the accumulator. -/
theorem readStrGo_at (items : List SItem) (acc : List Char) (rest : List Char)
    (hv : validItems items = true) :
    readStrGo acc (lexAt (renderItems items ++ '"' :: rest)).char
        (lexAt (renderItems items ++ '"' :: rest)).err
        (lexAt (renderItems items ++ '"' :: rest)).input
      = (.ok (String.mk (acc ++ decodeItems items)), lexAt rest) := by
  induction items generalizing acc with
  | nil =>
    cases rest <;> simp [renderItems, decodeItems, lexAt, readStrGo]
  | cons i is ih =>
    simp only [validItems, Bool.and_eq_true] at hv
    obtain ⟨hv1, hv2⟩ := hv
    cases i with
    | raw c =>
      simp only [validSItem, Bool.and_eq_true, decide_eq_true_eq] at hv1
      obtain ⟨⟨hc32, hcq⟩, hcb⟩ := hv1
      have hnc : ¬ c.toNat < 32 := by omega
      cases hsplit : renderItems is ++ '"' :: rest with
      | nil => exact absurd (List.append_eq_nil.mp hsplit).2 (by simp)
      | cons c2 r2 =>
        have ih2 := ih (acc ++ [c]) hv2
        rw [hsplit] at ih2
        simp only [renderItems, renderSItem, List.cons_append, List.nil_append]
        rw [hsplit]
        simp only [lexAt] at ih2 ⊢
        simp [readStrGo, hcq, hcb, hnc, ih2, decodeItems, decodeSItem]
    | esc c =>
      simp only [validSItem] at hv1
      obtain ⟨d, hd⟩ := Option.isSome_iff_exists.mp hv1
      cases hsplit : renderItems is ++ '"' :: rest with
      | nil => exact absurd (List.append_eq_nil.mp hsplit).2 (by simp)
      | cons c2 r2 =>
        have ih2 := ih (acc ++ [d]) hv2
        rw [hsplit] at ih2
        simp only [renderItems, renderSItem, List.cons_append, List.nil_append,
          List.append_assoc]
        rw [hsplit]
        simp only [lexAt] at ih2 ⊢
        simp [readStrGo, hd, ih2, decodeItems, decodeSItem]

/-- `readString` on the rendered text of a valid string literal returns its
decoded content and stops after the closing quote. -/
theorem readString_at (items : List SItem) (rest : List Char)
    (hv : validItems items = true) :
    readString (lexAt ('"' :: (renderItems items ++ '"' :: rest)))
      = (.ok (String.mk (decodeItems items)), lexAt rest) := by
  have h := readStrGo_at items [] rest hv
  simp only [List.nil_append] at h
  simpa [readString, lexAt, readChar] using h

/-! ### Number-scanning lemmas: the phases of readNumber consume exactly the
rendered number literal -/

theorem readChar_at (c : Char) (cs : List Char) :
    readChar (lexAt (c :: cs)) = lexAt cs := by
  cases cs <;> rfl

theorem numMinus_minus (T : List Char) :
    numMinus (lexAt ('-' :: T)) = (['-'], lexAt T) := by
  cases T <;> rfl

theorem numMinus_skip (c : Char) (T : List Char) (h : c ≠ '-') :
    numMinus (lexAt (c :: T)) = ([], lexAt (c :: T)) := by
  simp [numMinus, lexAt, h]

theorem numFrac_dot (f T : List Char) (hf : allDigits f = true) (hT : headNotDigit T) :
    numFrac (lexAt ('.' :: (f ++ T))) = ('.' :: f, lexAt T) := by
  have hd := digitsGo_at f T hf hT
  simp only [numFrac]
  rw [if_pos (show (lexAt ('.' :: (f ++ T))).char = '.' from rfl), readChar_at, hd]

theorem numFrac_skip (cs : List Char) (h : headNotNum cs) :
    numFrac (lexAt cs) = ([], lexAt cs) := by
  cases cs with
  | nil => rfl
  | cons c r => simp [numFrac, lexAt, h.2.1]

theorem numFrac_skip_e (ec : Char) (T : List Char) (hec : ec = 'e' ∨ ec = 'E') :
    numFrac (lexAt (ec :: T)) = ([], lexAt (ec :: T)) := by
  rcases hec with h | h <;> subst h <;> simp [numFrac, lexAt]

theorem numExp_skip (cs : List Char) (h : headNotNum cs) :
    numExp (lexAt cs) = ([], lexAt cs) := by
  cases cs with
  | nil => rfl
  | cons c r => simp [numExp, lexAt, h.2.2.1, h.2.2.2]

theorem numExp_sign (ec s : Char) (ds T : List Char) (hec : ec = 'e' ∨ ec = 'E')
    (hs : s = '+' ∨ s = '-') (hd : allDigits ds = true) (hT : headNotDigit T) :
    numExp (lexAt (ec :: s :: (ds ++ T))) = (ec :: s :: ds, lexAt T) := by
  have hdg := digitsGo_at ds T hd hT
  simp only [numExp]
  rw [if_pos (by rcases hec with h | h <;> simp [lexAt, h])]
  rw [readChar_at]
  rw [if_pos (by rcases hs with h | h <;> simp [lexAt, h])]
  rw [readChar_at, hdg]
  rfl

theorem numExp_nosign (ec : Char) (ds T : List Char) (hec : ec = 'e' ∨ ec = 'E')
    (hne : ds ≠ []) (hd : allDigits ds = true) (hT : headNotDigit T) :
    numExp (lexAt (ec :: (ds ++ T))) = (ec :: ds, lexAt T) := by
  have hdg := digitsGo_at ds T hd hT
  obtain ⟨d, ds2, rfl⟩ : ∃ d ds2, ds = d :: ds2 := by
    cases ds with
    | nil => exact absurd rfl hne
    | cons a b => exact ⟨a, b, rfl⟩
  have hdd : isDigitA d = true := by
    simp only [allDigits, List.all_cons, Bool.and_eq_true] at hd
    exact hd.1
  obtain ⟨-, -, -, -, -, -, -, -, hdm, -, hdp⟩ := digit_facts d hdd
  simp only [numExp]
  rw [if_pos (by rcases hec with h | h <;> simp [lexAt, h])]
  rw [readChar_at]
  rw [if_neg (by simp [lexAt, List.cons_append, hdm, hdp])]
  rw [show ((d :: ds2) ++ T : List Char) = d :: (ds2 ++ T) from rfl] at hdg
  rw [show lexAt (d :: (ds2 ++ T)) = ⟨ds2 ++ T, d, false⟩ from rfl] at hdg
  simp only [List.cons_append, lexAt]
  rw [hdg]
  rfl

theorem headNotNum_digit (cs : List Char) (h : headNotNum cs) : headNotDigit cs := by
  cases cs with
  | nil => trivial
  | cons c r => exact h.1

theorem headNotDigit_e (ec : Char) (hec : ec = 'e' ∨ ec = 'E') (T : List Char) :
    headNotDigit (ec :: T) := by
  rcases hec with h | h <;> subst h <;> simp only [headNotDigit] <;> decide

theorem headNotDigit_dot (T : List Char) : headNotDigit ('.' :: T) := by
  simp only [headNotDigit]; decide

theorem readNumber_at (n : JNum) (rest : List Char) (hv : validNum n = true)
    (hr : headNotNum rest) :
    readNumber (lexAt (renderNum n ++ rest)) = (String.mk (renderNum n), lexAt rest) := by
  obtain ⟨neg, int, frac, exp⟩ := n
  simp only [validNum, Bool.and_eq_true, decide_eq_true_eq, ne_eq] at hv
  obtain ⟨⟨⟨hne, hdig⟩, hfrac⟩, hexp⟩ := hv
  obtain ⟨d, int2, rfl⟩ : ∃ d int2, int = d :: int2 := by
    cases int with
    | nil => exact absurd rfl hne
    | cons a b => exact ⟨a, b, rfl⟩
  have hdd : isDigitA d = true := by
    simp only [allDigits, List.all_cons, Bool.and_eq_true] at hdig
    exact hdig.1
  obtain ⟨-, -, -, -, -, -, -, -, hdm, -, -⟩ := digit_facts d hdd
  rcases frac with _ | f <;> rcases exp with _ | ⟨ec, sgn, ds⟩
  · -- no fraction, no exponent
    have hd1 := digitsGo_at (d :: int2) rest hdig (headNotNum_digit rest hr)
    simp only [List.cons_append] at hd1
    have hf1 := numFrac_skip rest hr
    have he1 := numExp_skip rest hr
    cases neg with
    | true =>
      simp only [readNumber]
      simp only [renderNum, if_true, List.cons_append, List.nil_append,
        List.append_nil, List.append_assoc]
      rw [numMinus_minus]
      dsimp only
      rw [hd1]
      dsimp only
      rw [hf1]
      dsimp only
      rw [he1]
      simp
    | false =>
      simp only [readNumber]
      simp only [renderNum, Bool.false_eq_true, if_false, List.cons_append,
        List.nil_append, List.append_nil, List.append_assoc]
      rw [numMinus_skip d (int2 ++ rest) hdm]
      dsimp only
      rw [hd1]
      dsimp only
      rw [hf1]
      dsimp only
      rw [he1]
      simp
  · -- no fraction, exponent present
    simp only [Bool.and_eq_true, decide_eq_true_eq, ne_eq] at hexp
    obtain ⟨⟨⟨hec, hsgn⟩, hdsne⟩, hdsd⟩ := hexp
    rcases sgn with _ | s
    · -- exponent without sign
      have hd1 := digitsGo_at (d :: int2) (ec :: (ds ++ rest)) hdig
        (headNotDigit_e ec hec (ds ++ rest))
      simp only [List.cons_append] at hd1
      have hf1 := numFrac_skip_e ec (ds ++ rest) hec
      have he1 := numExp_nosign ec ds rest hec hdsne hdsd (headNotNum_digit rest hr)
      cases neg with
      | true =>
        simp only [readNumber]
        simp only [renderNum, if_true, List.cons_append, List.nil_append,
          List.append_nil, List.append_assoc]
        rw [numMinus_minus]
        dsimp only
        rw [hd1]
        dsimp only
        rw [hf1]
        dsimp only
        rw [he1]
        simp
      | false =>
        simp only [readNumber]
        simp only [renderNum, Bool.false_eq_true, if_false, List.cons_append,
          List.nil_append, List.append_nil, List.append_assoc]
        rw [numMinus_skip d (int2 ++ (ec :: (ds ++ rest))) hdm]
        dsimp only
        rw [hd1]
        dsimp only
        rw [hf1]
        dsimp only
        rw [he1]
        simp
    · -- exponent with sign
      have hs : s = '+' ∨ s = '-' := by simpa using hsgn
      have hd1 := digitsGo_at (d :: int2) (ec :: s :: (ds ++ rest)) hdig
        (headNotDigit_e ec hec (s :: (ds ++ rest)))
      simp only [List.cons_append] at hd1
      have hf1 := numFrac_skip_e ec (s :: (ds ++ rest)) hec
      have he1 := numExp_sign ec s ds rest hec hs hdsd (headNotNum_digit rest hr)
      cases neg with
      | true =>
        simp only [readNumber]
        simp only [renderNum, if_true, List.cons_append, List.nil_append,
          List.append_nil, List.append_assoc]
        rw [numMinus_minus]
        dsimp only
        rw [hd1]
        dsimp only
        rw [hf1]
        dsimp only
        rw [he1]
        simp
      | false =>
        simp only [readNumber]
        simp only [renderNum, Bool.false_eq_true, if_false, List.cons_append,
          List.nil_append, List.append_nil, List.append_assoc]
        rw [numMinus_skip d (int2 ++ (ec :: s :: (ds ++ rest))) hdm]
        dsimp only
        rw [hd1]
        dsimp only
        rw [hf1]
        dsimp only
        rw [he1]
        simp
  · -- fraction present, no exponent
    simp only [Bool.and_eq_true, decide_eq_true_eq, ne_eq] at hfrac
    obtain ⟨hfne, hfd⟩ := hfrac
    have hd1 := digitsGo_at (d :: int2) ('.' :: (f ++ rest)) hdig
      (headNotDigit_dot (f ++ rest))
    simp only [List.cons_append] at hd1
    have hf1 := numFrac_dot f rest hfd (headNotNum_digit rest hr)
    have he1 := numExp_skip rest hr
    cases neg with
    | true =>
      simp only [readNumber]
      simp only [renderNum, if_true, List.cons_append, List.nil_append,
        List.append_nil, List.append_assoc]
      rw [numMinus_minus]
      dsimp only
      rw [hd1]
      dsimp only
      rw [hf1]
      dsimp only
      rw [he1]
      simp
    | false =>
      simp only [readNumber]
      simp only [renderNum, Bool.false_eq_true, if_false, List.cons_append,
        List.nil_append, List.append_nil, List.append_assoc]
      rw [numMinus_skip d (int2 ++ ('.' :: (f ++ rest))) hdm]
      dsimp only
      rw [hd1]
      dsimp only
      rw [hf1]
      dsimp only
      rw [he1]
      simp
  · -- fraction and exponent present
    simp only [Bool.and_eq_true, decide_eq_true_eq, ne_eq] at hfrac hexp
    obtain ⟨hfne, hfd⟩ := hfrac
    obtain ⟨⟨⟨hec, hsgn⟩, hdsne⟩, hdsd⟩ := hexp
    rcases sgn with _ | s
    · have hd1 := digitsGo_at (d :: int2) ('.' :: (f ++ (ec :: (ds ++ rest)))) hdig
        (headNotDigit_dot _)
      simp only [List.cons_append] at hd1
      have hf1 := numFrac_dot f (ec :: (ds ++ rest)) hfd
        (headNotDigit_e ec hec (ds ++ rest))
      have he1 := numExp_nosign ec ds rest hec hdsne hdsd (headNotNum_digit rest hr)
      cases neg with
      | true =>
        simp only [readNumber]
        simp only [renderNum, if_true, List.cons_append, List.nil_append,
          List.append_nil, List.append_assoc]
        rw [numMinus_minus]
        dsimp only
        rw [hd1]
        dsimp only
        rw [hf1]
        dsimp only
        rw [he1]
        simp
      | false =>
        simp only [readNumber]
        simp only [renderNum, Bool.false_eq_true, if_false, List.cons_append,
          List.nil_append, List.append_nil, List.append_assoc]
        rw [numMinus_skip d (int2 ++ ('.' :: (f ++ (ec :: (ds ++ rest))))) hdm]
        dsimp only
        rw [hd1]
        dsimp only
        rw [hf1]
        dsimp only
        rw [he1]
        simp
    · have hs : s = '+' ∨ s = '-' := by simpa using hsgn
      have hd1 := digitsGo_at (d :: int2) ('.' :: (f ++ (ec :: s :: (ds ++ rest)))) hdig
        (headNotDigit_dot _)
      simp only [List.cons_append] at hd1
      have hf1 := numFrac_dot f (ec :: s :: (ds ++ rest)) hfd
        (headNotDigit_e ec hec (s :: (ds ++ rest)))
      have he1 := numExp_sign ec s ds rest hec hs hdsd (headNotNum_digit rest hr)
      cases neg with
      | true =>
        simp only [readNumber]
        simp only [renderNum, if_true, List.cons_append, List.nil_append,
          List.append_nil, List.append_assoc]
        rw [numMinus_minus]
        dsimp only
        rw [hd1]
        dsimp only
        rw [hf1]
        dsimp only
        rw [he1]
        simp
      | false =>
        simp only [readNumber]
        simp only [renderNum, Bool.false_eq_true, if_false, List.cons_append,
          List.nil_append, List.append_nil, List.append_assoc]
        rw [numMinus_skip d (int2 ++ ('.' :: (f ++ (ec :: s :: (ds ++ rest))))) hdm]
        dsimp only
        rw [hd1]
        dsimp only
        rw [hf1]
        dsimp only
        rw [he1]
        simp

/-! ### Token lemmas: NextToken on positioned states -/

/-- A left brace lexes to a LeftBrace token. -/
theorem nextToken_lbrace (cs : List Char) :
    NextToken (lexAt (charLBrace :: cs)) =
      (⟨.LeftBrace, String.singleton charLBrace⟩, lexAt cs) := by
  cases cs <;> rfl

/-- A right brace lexes to a RightBrace token. -/
theorem nextToken_rbrace (cs : List Char) :
    NextToken (lexAt (charRBrace :: cs)) =
      (⟨.RightBrace, String.singleton charRBrace⟩, lexAt cs) := by
  cases cs <;> rfl

/-- A left bracket lexes to a LeftBracket token. -/
theorem nextToken_lbracket (cs : List Char) :
    NextToken (lexAt ('[' :: cs)) = (⟨.LeftBracket, ("[")⟩, lexAt cs) := by
  cases cs <;> rfl

/-- A right bracket lexes to a RightBracket token. -/
theorem nextToken_rbracket (cs : List Char) :
    NextToken (lexAt (']' :: cs)) = (⟨.RightBracket, ("]")⟩, lexAt cs) := by
  cases cs <;> rfl

/-- A colon lexes to a Colon token. -/
theorem nextToken_colon (cs : List Char) :
    NextToken (lexAt (':' :: cs)) = (⟨.Colon, (":")⟩, lexAt cs) := by
  cases cs <;> rfl

/-- A comma lexes to a Comma token. -/
theorem nextToken_comma (cs : List Char) :
    NextToken (lexAt (',' :: cs)) = (⟨.Comma, (",")⟩, lexAt cs) := by
  cases cs <;> rfl

/-- Exhausted input lexes to the EOF token, leaving the state unchanged. -/
theorem nextToken_eof : NextToken (lexAt []) = (⟨.EOF, ""⟩, lexAt []) := rfl

theorem nextToken_string (items : List SItem) (rest : List Char)
    (hv : validItems items = true) :
    NextToken (lexAt ('"' :: (renderItems items ++ '"' :: rest)))
      = (⟨.String, String.mk (decodeItems items)⟩, lexAt rest) := by
  have hsw := skipWs_noop '"' (renderItems items ++ '"' :: rest) (by decide)
  have hrs := readString_at items rest hv
  simp only [NextToken]
  rw [hsw]
  simp only [lexAt] at hrs ⊢
  rw [if_neg (by decide), if_neg (by decide), if_neg (by decide), if_neg (by decide),
      if_neg (by decide), if_neg (by decide), if_neg (by decide), if_pos (by decide), hrs]

theorem nextToken_numhead (X : List Char) (hne : X ≠ [])
    (hc : isDigitA (X.headD nulChar) = true ∨ X.headD nulChar = '-') :
    NextToken (lexAt X)
      = (⟨.Number, (readNumber (lexAt X)).1⟩, (readNumber (lexAt X)).2) := by
  cases X with
  | nil => exact absurd rfl hne
  | cons c T =>
    simp only [List.headD_cons] at hc
    have hws : isWs c = false := by
      rcases hc with h | h
      · exact (digit_facts c h).1
      · subst h; decide
    have h1 : c ≠ charLBrace := by
      rcases hc with h | h
      · exact (digit_facts c h).2.1
      · subst h; decide
    have h2 : c ≠ charRBrace := by
      rcases hc with h | h
      · exact (digit_facts c h).2.2.1
      · subst h; decide
    have h3 : c ≠ '[' := by
      rcases hc with h | h
      · exact (digit_facts c h).2.2.2.1
      · subst h; decide
    have h4 : c ≠ ']' := by
      rcases hc with h | h
      · exact (digit_facts c h).2.2.2.2.1
      · subst h; decide
    have h5 : c ≠ ':' := by
      rcases hc with h | h
      · exact (digit_facts c h).2.2.2.2.2.1
      · subst h; decide
    have h6 : c ≠ ',' := by
      rcases hc with h | h
      · exact (digit_facts c h).2.2.2.2.2.2.1
      · subst h; decide
    have h7 : c ≠ '"' := by
      rcases hc with h | h
      · exact (digit_facts c h).2.2.2.2.2.2.2.1
      · subst h; decide
    have hsw := skipWs_noop c T hws
    simp only [NextToken]
    rw [hsw]
    rw [if_neg (show ¬((lexAt (c :: T)).err = true) by simp [lexAt])]
    rw [if_neg (show ¬((lexAt (c :: T)).char = charLBrace) by simpa [lexAt] using h1)]
    rw [if_neg (show ¬((lexAt (c :: T)).char = charRBrace) by simpa [lexAt] using h2)]
    rw [if_neg (show ¬((lexAt (c :: T)).char = '[') by simpa [lexAt] using h3)]
    rw [if_neg (show ¬((lexAt (c :: T)).char = ']') by simpa [lexAt] using h4)]
    rw [if_neg (show ¬((lexAt (c :: T)).char = ':') by simpa [lexAt] using h5)]
    rw [if_neg (show ¬((lexAt (c :: T)).char = ',') by simpa [lexAt] using h6)]
    rw [if_neg (show ¬((lexAt (c :: T)).char = '"') by simpa [lexAt] using h7)]
    rw [if_pos (show (isDigitA (lexAt (c :: T)).char || (lexAt (c :: T)).char = '-') = true by
          rcases hc with h | h <;> simp [lexAt, h])]

theorem nextToken_number (n : JNum) (rest : List Char) (hv : validNum n = true)
    (hr : headNotNum rest) :
    NextToken (lexAt (renderNum n ++ rest))
      = (⟨.Number, String.mk (renderNum n)⟩, lexAt rest) := by
  obtain ⟨neg, int, frac, exp⟩ := n
  have hv2 := hv
  simp only [validNum, Bool.and_eq_true, decide_eq_true_eq, ne_eq] at hv2
  obtain ⟨⟨⟨hne, hdig⟩, -⟩, -⟩ := hv2
  obtain ⟨d, int2, rfl⟩ : ∃ d int2, int = d :: int2 := by
    cases int with
    | nil => exact absurd rfl hne
    | cons a b => exact ⟨a, b, rfl⟩
  have hdd : isDigitA d = true := by
    simp only [allDigits, List.all_cons, Bool.and_eq_true] at hdig
    exact hdig.1
  have hXne : renderNum ⟨neg, d :: int2, frac, exp⟩ ++ rest ≠ [] := by
    cases neg <;> simp [renderNum]
  have hhead : isDigitA ((renderNum ⟨neg, d :: int2, frac, exp⟩ ++ rest).headD nulChar) = true ∨
      (renderNum ⟨neg, d :: int2, frac, exp⟩ ++ rest).headD nulChar = '-' := by
    cases neg with
    | true => right; simp [renderNum]
    | false => left; simpa [renderNum] using hdd
  rw [nextToken_numhead _ hXne hhead, readNumber_at _ rest hv hr]

theorem nextToken_identifier (c : Char) (w rest : List Char) (hc : isLetterA c = true)
    (hw : ∀ x ∈ w, isLetterA x = true ∨ x = '_') (hr : headNotIdent rest) :
    NextToken (lexAt (c :: (w ++ rest))) =
      (if String.mk (c :: w) = ("true") ∨ String.mk (c :: w) = ("false") then
         ⟨.Boolean, String.mk (c :: w)⟩
       else if String.mk (c :: w) = ("null") then ⟨.Null, String.mk (c :: w)⟩
       else ⟨.Error, ("invalid identifier: ") ++ String.mk (c :: w)⟩,
       lexAt rest) := by
  obtain ⟨hws, h1, h2, h3, h4, h5, h6, h7, h8, h9⟩ := letter_facts c hc
  have hgo := identGo_at (c :: w) rest
    (by
      intro x hx
      rcases List.mem_cons.mp hx with h | h
      · subst h; exact Or.inl hc
      · exact hw x h) hr
  simp only [List.cons_append] at hgo
  have hri : readIdentifier (lexAt (c :: (w ++ rest))) = (String.mk (c :: w), lexAt rest) := by
    simp only [readIdentifier, hgo]
  have hsw := skipWs_noop c (w ++ rest) hws
  simp only [NextToken]
  rw [hsw]
  rw [if_neg (show ¬((lexAt (c :: (w ++ rest))).err = true) by simp [lexAt])]
  rw [if_neg (show ¬((lexAt (c :: (w ++ rest))).char = charLBrace) by simpa [lexAt] using h1)]
  rw [if_neg (show ¬((lexAt (c :: (w ++ rest))).char = charRBrace) by simpa [lexAt] using h2)]
  rw [if_neg (show ¬((lexAt (c :: (w ++ rest))).char = '[') by simpa [lexAt] using h3)]
  rw [if_neg (show ¬((lexAt (c :: (w ++ rest))).char = ']') by simpa [lexAt] using h4)]
  rw [if_neg (show ¬((lexAt (c :: (w ++ rest))).char = ':') by simpa [lexAt] using h5)]
  rw [if_neg (show ¬((lexAt (c :: (w ++ rest))).char = ',') by simpa [lexAt] using h6)]
  rw [if_neg (show ¬((lexAt (c :: (w ++ rest))).char = '"') by simpa [lexAt] using h7)]
  rw [if_neg (show ¬((isDigitA (lexAt (c :: (w ++ rest))).char ||
        (lexAt (c :: (w ++ rest))).char = '-') = true) by simp [lexAt, h8, h9])]
  rw [if_pos (show isLetterA (lexAt (c :: (w ++ rest))).char = true by simpa [lexAt] using hc)]
  rw [hri]
  dsimp only
  by_cases hA : String.mk (c :: w) = ("true") ∨ String.mk (c :: w) = ("false")
  · simp [hA]
  · by_cases hB : String.mk (c :: w) = ("null")
    · simp [hA, hB]
    · simp [hA, hB]

/-! ### Parser-state lemmas: `parserAt` after loading one token -/

theorem parserAt_eq (cs cs2 : List Char) (t : Token)
    (h : NextToken (lexAt cs) = (t, lexAt cs2)) :
    parserAt cs = ⟨lexAt cs2, t⟩ := by
  simp [parserAt, NewParser, h]

theorem parserAt_lbrace (cs : List Char) :
    parserAt (charLBrace :: cs) =
      ⟨lexAt cs, ⟨.LeftBrace, String.singleton charLBrace⟩⟩ :=
  parserAt_eq _ _ _ (nextToken_lbrace cs)

theorem parserAt_rbrace (cs : List Char) :
    parserAt (charRBrace :: cs) =
      ⟨lexAt cs, ⟨.RightBrace, String.singleton charRBrace⟩⟩ :=
  parserAt_eq _ _ _ (nextToken_rbrace cs)

theorem parserAt_lbracket (cs : List Char) :
    parserAt ('[' :: cs) = ⟨lexAt cs, ⟨.LeftBracket, ("[")⟩⟩ :=
  parserAt_eq _ _ _ (nextToken_lbracket cs)

theorem parserAt_rbracket (cs : List Char) :
    parserAt (']' :: cs) = ⟨lexAt cs, ⟨.RightBracket, ("]")⟩⟩ :=
  parserAt_eq _ _ _ (nextToken_rbracket cs)

theorem parserAt_colon (cs : List Char) :
    parserAt (':' :: cs) = ⟨lexAt cs, ⟨.Colon, (":")⟩⟩ :=
  parserAt_eq _ _ _ (nextToken_colon cs)

theorem parserAt_comma (cs : List Char) :
    parserAt (',' :: cs) = ⟨lexAt cs, ⟨.Comma, (",")⟩⟩ :=
  parserAt_eq _ _ _ (nextToken_comma cs)

theorem parserAt_nil : parserAt [] = ⟨lexAt [], ⟨.EOF, ""⟩⟩ := rfl

theorem parserAt_str (items : List SItem) (rest : List Char)
    (hv : validItems items = true) :
    parserAt ('"' :: (renderItems items ++ '"' :: rest)) =
      ⟨lexAt rest, ⟨.String, String.mk (decodeItems items)⟩⟩ :=
  parserAt_eq _ _ _ (nextToken_string items rest hv)

theorem parserAt_num (n : JNum) (rest : List Char) (hv : validNum n = true)
    (hr : headNotNum rest) :
    parserAt (renderNum n ++ rest) =
      ⟨lexAt rest, ⟨.Number, String.mk (renderNum n)⟩⟩ :=
  parserAt_eq _ _ _ (nextToken_number n rest hv hr)

theorem parserAt_kwtrue (rest : List Char) (hr : headNotIdent rest) :
    parserAt ('t' :: 'r' :: 'u' :: 'e' :: rest) =
      ⟨lexAt rest, ⟨.Boolean, ("true")⟩⟩ := by
  have h := nextToken_identifier 't' ['r', 'u', 'e'] rest (by decide) (by decide) hr
  simp only [List.cons_append, List.nil_append] at h
  refine parserAt_eq _ rest _ ?_
  rw [h]
  norm_num

theorem parserAt_kwfalse (rest : List Char) (hr : headNotIdent rest) :
    parserAt ('f' :: 'a' :: 'l' :: 's' :: 'e' :: rest) =
      ⟨lexAt rest, ⟨.Boolean, ("false")⟩⟩ := by
  have h := nextToken_identifier 'f' ['a', 'l', 's', 'e'] rest (by decide) (by decide) hr
  simp only [List.cons_append, List.nil_append] at h
  refine parserAt_eq _ rest _ ?_
  rw [h]
  norm_num

theorem parserAt_kwnull (rest : List Char) (hr : headNotIdent rest) :
    parserAt ('n' :: 'u' :: 'l' :: 'l' :: rest) =
      ⟨lexAt rest, ⟨.Null, ("null")⟩⟩ := by
  have h := nextToken_identifier 'n' ['u', 'l', 'l'] rest (by decide) (by decide) hr
  simp only [List.cons_append, List.nil_append] at h
  refine parserAt_eq _ rest _ ?_
  rw [h, if_neg (by decide)]
  norm_num

theorem follow_headNotNum (rest : List Char) (h : Follow rest) : headNotNum rest := by
  cases rest with
  | nil => trivial
  | cons c r =>
    simp only [headNotNum]
    rcases h with h | h | h <;> subst h <;> exact ⟨by decide, by decide, by decide, by decide⟩

theorem follow_headNotIdent (rest : List Char) (h : Follow rest) : headNotIdent rest := by
  cases rest with
  | nil => trivial
  | cons c r =>
    simp only [headNotIdent]
    rcases h with h | h | h <;> subst h <;> exact ⟨by decide, by decide⟩

theorem renderMembers_mcons (key : List SItem) (v : JVal) (t : JMembers) :
    renderMembers (.mcons key v t) =
      '"' :: (renderItems key ++ ('"' :: ':' :: (renderVal v ++ renderMTail t))) := by
  cases t <;> rfl

theorem renderElems_econs (v : JVal) (t : JElems) :
    renderElems (.econs v t) = renderVal v ++ renderETail t := by
  cases t <;> rfl

theorem follow_mtail (t : JMembers) (rest : List Char) :
    Follow (renderMTail t ++ charRBrace :: rest) := by
  cases t with
  | mnil => exact Or.inr (Or.inl rfl)
  | mcons k2 v2 t2 => exact Or.inl rfl

theorem follow_etail (t : JElems) (rest : List Char) :
    Follow (renderETail t ++ ']' :: rest) := by
  cases t with
  | enil => exact Or.inr (Or.inr rfl)
  | econs v2 t2 => exact Or.inl rfl

/-! ### Parser completeness on rendered documents -/

theorem renderVal_str_shape (items : List SItem) (rest : List Char) :
    renderVal (JVal.str items) ++ rest = '"' :: (renderItems items ++ '"' :: rest) := by
  simp [renderVal, List.append_assoc]

theorem renderVal_obj_shape (m : JMembers) (rest : List Char) :
    renderVal (JVal.obj m) ++ rest = charLBrace :: (renderMembers m ++ charRBrace :: rest) := by
  simp [renderVal, List.append_assoc]

theorem renderVal_arr_shape (e : JElems) (rest : List Char) :
    renderVal (JVal.arr e) ++ rest = '[' :: (renderElems e ++ ']' :: rest) := by
  simp [renderVal, List.append_assoc]

theorem renderVal_true_shape (rest : List Char) :
    renderVal (JVal.jbool true) ++ rest = 't' :: 'r' :: 'u' :: 'e' :: rest := by
  simp [renderVal]

theorem renderVal_false_shape (rest : List Char) :
    renderVal (JVal.jbool false) ++ rest = 'f' :: 'a' :: 'l' :: 's' :: 'e' :: rest := by
  simp [renderVal]

theorem renderVal_null_shape (rest : List Char) :
    renderVal JVal.jnull ++ rest = 'n' :: 'u' :: 'l' :: 'l' :: rest := by
  simp [renderVal]

/-- The first token of a rendered value is never a closing delimiter, a
colon, a comma, an end-of-input, or a lexical error. -/
theorem valueToken_ne (v : JVal) (rest : List Char) (hval : validVal v = true)
    (hF : Follow rest) :
    (parserAt (renderVal v ++ rest)).token.type ≠ TokenType.RightBracket ∧
    (parserAt (renderVal v ++ rest)).token.type ≠ TokenType.RightBrace := by
  cases v with
  | str items =>
    rw [renderVal_str_shape, parserAt_str items rest (by simpa [validVal] using hval)]
    exact ⟨by simp, by simp⟩
  | num n =>
    rw [show renderVal (JVal.num n) ++ rest = renderNum n ++ rest from rfl,
      parserAt_num n rest (by simpa [validVal] using hval) (follow_headNotNum rest hF)]
    exact ⟨by simp, by simp⟩
  | jbool b =>
    cases b with
    | true =>
      rw [renderVal_true_shape, parserAt_kwtrue rest (follow_headNotIdent rest hF)]
      exact ⟨by simp, by simp⟩
    | false =>
      rw [renderVal_false_shape, parserAt_kwfalse rest (follow_headNotIdent rest hF)]
      exact ⟨by simp, by simp⟩
  | jnull =>
    rw [renderVal_null_shape, parserAt_kwnull rest (follow_headNotIdent rest hF)]
    exact ⟨by simp, by simp⟩
  | obj m =>
    rw [renderVal_obj_shape, parserAt_lbrace]
    exact ⟨by simp, by simp⟩
  | arr e =>
    rw [renderVal_arr_shape, parserAt_lbracket]
    exact ⟨by simp, by simp⟩

/-- Completeness of the parser on rendered well-formed documents, all five
productions at once, by strong induction on the fuel cost. -/
theorem parse_complete : ∀ N : Nat,
    (∀ v : JVal, vFuel v ≤ N → ∀ (k : Nat) (rest : List Char),
      validVal v = true → Follow rest →
      parseGo (k + vFuel v) .value (parserAt (renderVal v ++ rest))
        = .ok (parserAt rest)) ∧
    (∀ (key : List SItem) (v : JVal) (t : JMembers),
      mFuel (JMembers.mcons key v t) ≤ N → ∀ (k : Nat) (rest : List Char),
      validMembers (JMembers.mcons key v t) = true →
      parseGo (k + mFuel (JMembers.mcons key v t)) .objectLoop
          (parserAt (renderMembers (JMembers.mcons key v t) ++ charRBrace :: rest))
        = .ok (parserAt rest)) ∧
    (∀ m : JMembers, mFuel m ≤ N → ∀ (k : Nat) (rest : List Char),
      validMembers m = true →
      parseGo (k + 1 + mFuel m) .object
          (parserAt (charLBrace :: (renderMembers m ++ charRBrace :: rest)))
        = .ok (parserAt rest)) ∧
    (∀ (v : JVal) (t : JElems), eFuel (JElems.econs v t) ≤ N →
      ∀ (k : Nat) (rest : List Char),
      validElems (JElems.econs v t) = true →
      parseGo (k + eFuel (JElems.econs v t)) .arrayLoop
          (parserAt (renderElems (JElems.econs v t) ++ ']' :: rest))
        = .ok (parserAt rest)) ∧
    (∀ e : JElems, eFuel e ≤ N → ∀ (k : Nat) (rest : List Char),
      validElems e = true →
      parseGo (k + 1 + eFuel e) .array
          (parserAt ('[' :: (renderElems e ++ ']' :: rest)))
        = .ok (parserAt rest)) := by
  intro N
  induction N using Nat.strong_induction_on with
  | _ N IH =>
  have HV : ∀ v : JVal, vFuel v ≤ N → ∀ (k : Nat) (rest : List Char),
      validVal v = true → Follow rest →
      parseGo (k + vFuel v) .value (parserAt (renderVal v ++ rest))
        = .ok (parserAt rest) := by
    intro v hN k rest hval hF
    cases v with
    | str items =>
      rw [show k + vFuel (JVal.str items) = k + 1 from by simp [vFuel]]
      rw [renderVal_str_shape, parserAt_str items rest (by simpa [validVal] using hval)]
      simp only [parseGo]
      try dsimp only
      rw [nextTokenP_at]
    | num n =>
      rw [show k + vFuel (JVal.num n) = k + 1 from by simp [vFuel]]
      rw [show renderVal (JVal.num n) ++ rest = renderNum n ++ rest from rfl,
        parserAt_num n rest (by simpa [validVal] using hval) (follow_headNotNum rest hF)]
      simp only [parseGo]
      try dsimp only
      rw [nextTokenP_at]
    | jbool b =>
      cases b with
      | true =>
        rw [show k + vFuel (JVal.jbool true) = k + 1 from by simp [vFuel]]
        rw [renderVal_true_shape, parserAt_kwtrue rest (follow_headNotIdent rest hF)]
        simp only [parseGo]
        try dsimp only
        rw [nextTokenP_at]
      | false =>
        rw [show k + vFuel (JVal.jbool false) = k + 1 from by simp [vFuel]]
        rw [renderVal_false_shape, parserAt_kwfalse rest (follow_headNotIdent rest hF)]
        simp only [parseGo]
        try dsimp only
        rw [nextTokenP_at]
    | jnull =>
      rw [show k + vFuel JVal.jnull = k + 1 from by simp [vFuel]]
      rw [renderVal_null_shape, parserAt_kwnull rest (follow_headNotIdent rest hF)]
      simp only [parseGo]
      try dsimp only
      rw [nextTokenP_at]
    | obj m =>
      have hm : validMembers m = true := by simpa [validVal] using hval
      have hmN : mFuel m < N := by
        have h2 : vFuel (JVal.obj m) = 2 + mFuel m := by simp [vFuel]
        omega
      rw [show k + vFuel (JVal.obj m) = (k + 1 + mFuel m) + 1 from by
        simp only [vFuel]; omega]
      rw [renderVal_obj_shape]
      have hp := parserAt_lbrace (renderMembers m ++ charRBrace :: rest)
      rw [hp]
      simp only [parseGo]
      try dsimp only
      rw [← hp]
      exact (IH (mFuel m) hmN).2.2.1 m le_rfl k rest hm
    | arr e =>
      have he : validElems e = true := by simpa [validVal] using hval
      have heN : eFuel e < N := by
        have h2 : vFuel (JVal.arr e) = 2 + eFuel e := by simp [vFuel]
        omega
      rw [show k + vFuel (JVal.arr e) = (k + 1 + eFuel e) + 1 from by
        simp only [vFuel]; omega]
      rw [renderVal_arr_shape]
      have hp := parserAt_lbracket (renderElems e ++ ']' :: rest)
      rw [hp]
      simp only [parseGo]
      try dsimp only
      rw [← hp]
      exact (IH (eFuel e) heN).2.2.2.2 e le_rfl k rest he
  have HL : ∀ (key : List SItem) (v : JVal) (t : JMembers),
      mFuel (JMembers.mcons key v t) ≤ N → ∀ (k : Nat) (rest : List Char),
      validMembers (JMembers.mcons key v t) = true →
      parseGo (k + mFuel (JMembers.mcons key v t)) .objectLoop
          (parserAt (renderMembers (JMembers.mcons key v t) ++ charRBrace :: rest))
        = .ok (parserAt rest) := by
    intro key v t hN k rest hval
    have hval2 := hval
    simp only [validMembers, Bool.and_eq_true] at hval2
    obtain ⟨⟨hkey, hv⟩, ht⟩ := hval2
    have hvN : vFuel v < N := by simp only [mFuel] at hN; omega
    rw [show k + mFuel (JMembers.mcons key v t) = (k + vFuel v + mFuel t) + 1 from by
      simp only [mFuel]; omega]
    rw [renderMembers_mcons]
    rw [show ('"' :: (renderItems key ++ ('"' :: ':' :: (renderVal v ++ renderMTail t))))
          ++ charRBrace :: rest
        = '"' :: (renderItems key ++ '"' ::
            (':' :: (renderVal v ++ (renderMTail t ++ charRBrace :: rest)))) from by
      simp [List.append_assoc]]
    rw [parserAt_str key (':' :: (renderVal v ++ (renderMTail t ++ charRBrace :: rest))) hkey]
    simp only [parseGo]
    rw [if_neg (by simp)]
    rw [nextTokenP_at, parserAt_colon]
    rw [if_neg (by simp)]
    rw [nextTokenP_at]
    have hPV := (IH (vFuel v) hvN).1 v le_rfl (k + mFuel t)
      (renderMTail t ++ charRBrace :: rest) hv (follow_mtail t rest)
    rw [show k + mFuel t + vFuel v = k + vFuel v + mFuel t from by omega] at hPV
    rw [hPV]
    try dsimp only
    cases t with
    | mnil =>
      simp only [renderMTail, List.nil_append]
      rw [parserAt_rbrace]
      rw [if_pos rfl]
      rw [nextTokenP_at]
    | mcons k2 v2 t2 =>
      simp only [renderMTail, List.cons_append]
      rw [parserAt_comma]
      rw [if_neg (by simp), if_neg (by simp)]
      rw [nextTokenP_at]
      have htN : mFuel (JMembers.mcons k2 v2 t2) < N := by
        simp only [mFuel] at hN ⊢
        omega
      exact (IH (mFuel (JMembers.mcons k2 v2 t2)) htN).2.1 k2 v2 t2 le_rfl
        (k + vFuel v) rest ht
  have HO : ∀ m : JMembers, mFuel m ≤ N → ∀ (k : Nat) (rest : List Char),
      validMembers m = true →
      parseGo (k + 1 + mFuel m) .object
          (parserAt (charLBrace :: (renderMembers m ++ charRBrace :: rest)))
        = .ok (parserAt rest) := by
    intro m hN k rest hval
    rw [show k + 1 + mFuel m = (k + mFuel m) + 1 from by omega]
    have hp := parserAt_lbrace (renderMembers m ++ charRBrace :: rest)
    rw [hp]
    simp only [parseGo]
    rw [if_neg (by simp)]
    try dsimp only
    rw [nextTokenP_at]
    cases m with
    | mnil =>
      simp only [renderMembers, List.nil_append]
      rw [parserAt_rbrace]
      rw [if_pos rfl]
      rw [nextTokenP_at]
    | mcons key v t =>
      have hval2 := hval
      simp only [validMembers, Bool.and_eq_true] at hval2
      obtain ⟨⟨hkey, hv⟩, ht⟩ := hval2
      rw [if_neg (show ¬((parserAt (renderMembers (JMembers.mcons key v t)
            ++ charRBrace :: rest)).token.type = TokenType.RightBrace) from by
        rw [renderMembers_mcons]
        rw [show ('"' :: (renderItems key ++ ('"' :: ':' :: (renderVal v ++ renderMTail t))))
              ++ charRBrace :: rest
            = '"' :: (renderItems key ++ '"' ::
                (':' :: (renderVal v ++ (renderMTail t ++ charRBrace :: rest)))) from by
          simp [List.append_assoc]]
        rw [parserAt_str key _ hkey]
        simp)]
      exact HL key v t hN k rest hval
  have HEL : ∀ (v : JVal) (t : JElems), eFuel (JElems.econs v t) ≤ N →
      ∀ (k : Nat) (rest : List Char),
      validElems (JElems.econs v t) = true →
      parseGo (k + eFuel (JElems.econs v t)) .arrayLoop
          (parserAt (renderElems (JElems.econs v t) ++ ']' :: rest))
        = .ok (parserAt rest) := by
    intro v t hN k rest hval
    have hval2 := hval
    simp only [validElems, Bool.and_eq_true] at hval2
    obtain ⟨hv, ht⟩ := hval2
    have hvN : vFuel v < N := by simp only [eFuel] at hN; omega
    rw [show k + eFuel (JElems.econs v t) = (k + eFuel t + vFuel v) + 1 from by
      simp only [eFuel]; omega]
    rw [renderElems_econs]
    rw [show (renderVal v ++ renderETail t) ++ ']' :: rest
        = renderVal v ++ (renderETail t ++ ']' :: rest) from by simp [List.append_assoc]]
    simp only [parseGo]
    have hPV := (IH (vFuel v) hvN).1 v le_rfl (k + eFuel t)
      (renderETail t ++ ']' :: rest) hv (follow_etail t rest)
    rw [hPV]
    try dsimp only
    cases t with
    | enil =>
      simp only [renderETail, List.nil_append]
      rw [parserAt_rbracket]
      rw [if_pos rfl]
      rw [nextTokenP_at]
    | econs v2 t2 =>
      simp only [renderETail, List.cons_append]
      rw [parserAt_comma]
      rw [if_neg (by simp), if_neg (by simp)]
      rw [nextTokenP_at]
      have htN : eFuel (JElems.econs v2 t2) < N := by
        simp only [eFuel] at hN ⊢
        omega
      have hinst := (IH (eFuel (JElems.econs v2 t2)) htN).2.2.2.1 v2 t2 le_rfl
        (k + vFuel v) rest ht
      rw [show k + vFuel v + eFuel (JElems.econs v2 t2)
          = k + eFuel (JElems.econs v2 t2) + vFuel v from by omega] at hinst
      exact hinst
  have HA : ∀ e : JElems, eFuel e ≤ N → ∀ (k : Nat) (rest : List Char),
      validElems e = true →
      parseGo (k + 1 + eFuel e) .array
          (parserAt ('[' :: (renderElems e ++ ']' :: rest)))
        = .ok (parserAt rest) := by
    intro e hN k rest hval
    rw [show k + 1 + eFuel e = (k + eFuel e) + 1 from by omega]
    have hp := parserAt_lbracket (renderElems e ++ ']' :: rest)
    rw [hp]
    simp only [parseGo]
    try dsimp only
    rw [nextTokenP_at]
    cases e with
    | enil =>
      simp only [renderElems, List.nil_append]
      rw [parserAt_rbracket]
      rw [if_pos rfl]
      rw [nextTokenP_at]
    | econs v t =>
      have hval2 := hval
      simp only [validElems, Bool.and_eq_true] at hval2
      obtain ⟨hv, ht⟩ := hval2
      rw [if_neg (show ¬((parserAt (renderElems (JElems.econs v t)
            ++ ']' :: rest)).token.type = TokenType.RightBracket) from by
        rw [show renderElems (JElems.econs v t) ++ ']' :: rest
            = renderVal v ++ (renderETail t ++ ']' :: rest) from by
          rw [renderElems_econs]; simp [List.append_assoc]]
        exact (valueToken_ne v _ hv (follow_etail t rest)).1)]
      exact HEL v t hN k rest hval
  exact ⟨HV, HL, HO, HEL, HA⟩

/-! ### Fuel bounds: the driver fuel 2*length+2 suffices -/

mutual
theorem vFuel_le (v : JVal) (h : validVal v = true) :
    vFuel v ≤ 2 * (renderVal v).length := by
  cases v with
  | str items => simp [vFuel, renderVal]; omega
  | num n =>
    have hlen : 1 ≤ (renderNum n).length := by
      simp only [validVal, validNum, Bool.and_eq_true, decide_eq_true_eq, ne_eq] at h
      obtain ⟨⟨⟨hne, -⟩, -⟩, -⟩ := h
      obtain ⟨neg, int, frac, exp⟩ := n
      cases int with
      | nil => exact absurd rfl hne
      | cons a b =>
        cases neg <;> simp [renderNum]
    simp only [vFuel, renderVal]
    omega
  | jbool b => cases b <;> simp [vFuel, renderVal]
  | jnull => simp [vFuel, renderVal]
  | obj m =>
    have hm := mFuel_le m (by simpa [validVal] using h)
    simp only [vFuel, renderVal, List.length_cons, List.length_append,
      List.length_singleton]
    omega
  | arr e =>
    have he := eFuel_le e (by simpa [validVal] using h)
    simp only [vFuel, renderVal, List.length_cons, List.length_append,
      List.length_singleton]
    omega

theorem mFuel_le (m : JMembers) (h : validMembers m = true) :
    mFuel m ≤ 2 * (renderMembers m).length + 2 := by
  cases m with
  | mnil => simp [mFuel]
  | mcons key v t =>
    simp only [validMembers, Bool.and_eq_true] at h
    obtain ⟨⟨hkey, hv⟩, ht⟩ := h
    have hV := vFuel_le v hv
    have hT := mFuel_le t ht
    rw [renderMembers_mcons]
    simp only [mFuel, List.length_cons, List.length_append]
    cases t with
    | mnil =>
      simp only [renderMTail, List.length_nil, mFuel] at hT ⊢
      omega
    | mcons k2 v2 t2 =>
      simp only [renderMTail, List.length_cons] at hT ⊢
      omega

theorem eFuel_le (e : JElems) (h : validElems e = true) :
    eFuel e ≤ 2 * (renderElems e).length + 2 := by
  cases e with
  | enil => simp [eFuel]
  | econs v t =>
    simp only [validElems, Bool.and_eq_true] at h
    obtain ⟨hv, ht⟩ := h
    have hV := vFuel_le v hv
    have hT := eFuel_le t ht
    rw [renderElems_econs]
    simp only [eFuel, List.length_append]
    cases t with
    | enil =>
      simp only [renderETail, List.length_nil, eFuel] at hT ⊢
      omega
    | econs v2 t2 =>
      simp only [renderETail, List.length_cons] at hT ⊢
      omega
end

/-! ### Claim-level helper lemmas -/

/-- Running the whole validator on a rendered well-formed object followed by
arbitrary trailing bytes succeeds: the driver fuel is sufficient and the
parser never looks past the token after the root closing brace. -/
theorem runChars_obj (m : JMembers) (r : List Char) (hm : validMembers m = true) :
    runChars (renderVal (JVal.obj m) ++ r) = .ok () := by
  have hb := mFuel_le m hm
  have hlenv : (renderVal (JVal.obj m)).length = (renderMembers m).length + 2 := by
    simp [renderVal, List.length_append]
  obtain ⟨k, hk⟩ : ∃ k, 2 * (renderVal (JVal.obj m) ++ r).length + 2
      = k + 1 + mFuel m := by
    refine ⟨2 * (renderVal (JVal.obj m) ++ r).length + 2 - (1 + mFuel m), ?_⟩
    simp only [List.length_append]
    omega
  have hcomp := (parse_complete (mFuel m)).2.2.1 m le_rfl k r hm
  simp only [runChars, ParseObject]
  rw [newLexer_lexAt]
  rw [show NewParser (lexAt (renderVal (JVal.obj m) ++ r))
      = parserAt (renderVal (JVal.obj m) ++ r) from rfl]
  rw [hk, renderVal_obj_shape, hcomp]

/-- Hitting a backslash followed by an unsupported escape character inside a
string makes the scanning loop fail with the invalid-escape message naming
that character, whatever valid items came before. -/
theorem readStrGo_badesc (pre : List SItem) (acc : List Char) (c : Char)
    (cs : List Char) (hv : validItems pre = true) (hc : escDecode c = none) :
    (readStrGo acc (lexAt (renderItems pre ++ '\\' :: c :: cs)).char
        (lexAt (renderItems pre ++ '\\' :: c :: cs)).err
        (lexAt (renderItems pre ++ '\\' :: c :: cs)).input).1 =
      .error (("invalid escape sequence: \\") ++ String.singleton c) := by
  induction pre generalizing acc with
  | nil =>
    simp only [renderItems, List.nil_append, lexAt]
    simp [readStrGo, hc]
  | cons i is ih =>
    simp only [validItems, Bool.and_eq_true] at hv
    obtain ⟨hv1, hv2⟩ := hv
    cases i with
    | raw a =>
      simp only [validSItem, Bool.and_eq_true, decide_eq_true_eq] at hv1
      obtain ⟨⟨ha32, haq⟩, hab⟩ := hv1
      have hna : ¬ a.toNat < 32 := by omega
      cases hsplit : renderItems is ++ '\\' :: c :: cs with
      | nil => exact absurd (List.append_eq_nil.mp hsplit).2 (by simp)
      | cons c2 r2 =>
        have ih2 := ih (acc ++ [a]) hv2
        rw [hsplit] at ih2
        simp only [renderItems, renderSItem, List.cons_append, List.nil_append]
        rw [hsplit]
        simp only [lexAt] at ih2 ⊢
        simp [readStrGo, haq, hab, hna, ih2]
    | esc a =>
      simp only [validSItem] at hv1
      obtain ⟨d, hd⟩ := Option.isSome_iff_exists.mp hv1
      cases hsplit : renderItems is ++ '\\' :: c :: cs with
      | nil => exact absurd (List.append_eq_nil.mp hsplit).2 (by simp)
      | cons c2 r2 =>
        have ih2 := ih (acc ++ [d]) hv2
        rw [hsplit] at ih2
        simp only [renderItems, renderSItem, List.cons_append, List.nil_append,
          List.append_assoc]
        rw [hsplit]
        simp only [lexAt] at ih2 ⊢
        simp [readStrGo, hd, ih2]

/-- `readString` on a string literal whose body reaches an unsupported escape
fails with the invalid-escape message naming the offending character. -/
theorem readString_badesc (pre : List SItem) (c : Char) (cs : List Char)
    (hv : validItems pre = true) (hc : escDecode c = none) :
    (readString (lexAt ('"' :: (renderItems pre ++ '\\' :: c :: cs)))).1 =
      .error (("invalid escape sequence: \\") ++ String.singleton c) := by
  have h := readStrGo_badesc pre [] c cs hv hc
  cases hsplit : renderItems pre ++ '\\' :: c :: cs with
  | nil => exact absurd (List.append_eq_nil.mp hsplit).2 (by simp)
  | cons c2 r2 =>
    rw [hsplit] at h
    simp only [lexAt] at h
    simpa [readString, lexAt, readChar, hsplit] using h

/-! ### The claims -/

/-- Claim C1: for every well-formed JSON object document (generated by the
grammar of §4.1 and rendered to its source text), running ParseObject on a
parser freshly created over a lexer for that input returns success; in
particular the inputs given in the claim all validate successfully. -/
theorem claim_C1 :
    (∀ m : JMembers, validMembers m = true →
      runChars (renderVal (JVal.obj m)) = .ok ()) ∧
    validate ("\x7b\x7d") = .ok () ∧
    validate ("\x7b\"a\":1\x7d") = .ok () ∧
    validate ("\x7b\"a\":[1,2,3]\x7d") = .ok () ∧
    validate ("\x7b\"a\":\x7b\"b\":null\x7d\x7d") = .ok () := by
  refine ⟨?_, rfl, rfl, rfl, rfl⟩
  intro m hm
  have h := runChars_obj m [] hm
  simpa using h

/-- Witness for C1 at a concrete document, the object with one member
mapping key a to the number 1. -/
theorem claim_C1_witness :
    validMembers (JMembers.mcons [SItem.raw 'a']
      (JVal.num ⟨false, ['1'], none, none⟩) .mnil) = true ∧
    runChars (renderVal (JVal.obj (JMembers.mcons [SItem.raw 'a']
      (JVal.num ⟨false, ['1'], none, none⟩) .mnil))) = .ok () :=
  ⟨by decide, claim_C1.1 _ (by decide)⟩

/-- Claim C2: for every input whose first token is not a left brace,
ParseObject fails with an error of the expected-left-brace form, even when
the input is otherwise valid general JSON (a bare array, string or number). -/
theorem claim_C2 :
    (∀ cs : List Char,
      (NewParser (NewLexer cs)).token.type ≠ TokenType.LeftBrace →
      runChars cs = .error (("expected ") ++ quoted (String.singleton charLBrace) ++
        (", got ") ++ quoted (NewParser (NewLexer cs)).token.literal)) ∧
    validate ("[1,2]") = .error (("expected ") ++ quoted (String.singleton charLBrace) ++
      (", got ") ++ quoted ("[")) ∧
    validate ("\"a\"") = .error (("expected ") ++ quoted (String.singleton charLBrace) ++
      (", got ") ++ quoted ("a")) ∧
    validate ("7") = .error (("expected ") ++ quoted (String.singleton charLBrace) ++
      (", got ") ++ quoted ("7")) := by
  refine ⟨?_, rfl, rfl, rfl⟩
  intro cs h
  simp only [runChars, ParseObject]
  rw [show 2 * cs.length + 2 = (2 * cs.length + 1) + 1 from by omega]
  simp only [parseGo]
  rw [if_pos h]

/-- Witness for C2 at the concrete bare-array input. -/
theorem claim_C2_witness :
    (NewParser (NewLexer (("[1,2]").data))).token.type ≠ TokenType.LeftBrace ∧
    runChars (("[1,2]").data) = .error (("expected ") ++
      quoted (String.singleton charLBrace) ++ (", got ") ++
      quoted (NewParser (NewLexer (("[1,2]").data))).token.literal) :=
  ⟨by decide, claim_C2.1 _ (by decide)⟩

/-- Claim C3: for every input consisting of a complete rendered top-level
object followed by arbitrary additional bytes, ParseObject still returns
success: trailing tokens are neither consumed further nor rejected. -/
theorem claim_C3 :
    (∀ (m : JMembers) (r : List Char), validMembers m = true →
      runChars (renderVal (JVal.obj m) ++ r) = .ok ()) ∧
    validate ("\x7b\x7d x") = .ok () ∧
    validate ("\x7b\"a\":1\x7d ]") = .ok () := by
  exact ⟨fun m r hm => runChars_obj m r hm, rfl, rfl⟩

/-- Witness for C3: the empty object followed by trailing garbage. -/
theorem claim_C3_witness :
    validMembers JMembers.mnil = true ∧
    runChars (renderVal (JVal.obj JMembers.mnil) ++ (" x]").data) = .ok () :=
  ⟨by decide, claim_C3.1 JMembers.mnil ((" x]").data) (by decide)⟩

/-- Claim C4: the object with a trailing comma fails: the comma is consumed,
the loop requires another key, and the closing brace is rejected as a key
with the expected-string-key error. -/
theorem claim_C4 :
    validate ("\x7b\"a\":1,\x7d") =
      .error (("expected string key, got ") ++ String.singleton charRBrace) := rfl

/-- Claim C5: tokenizing a string literal with a supported escape yields a
String token whose literal is the decoded text: the source a-backslash-t-b
becomes a three-character literal with an actual tab, a backslash-n becomes
an actual newline, and the document using such a string validates. -/
theorem claim_C5 :
    NextToken (NewLexer (("\"a\\tb\"").data)) =
      (⟨.String, String.mk ('a' :: Char.ofNat 9 :: 'b' :: [])⟩, ⟨[], nulChar, true⟩) ∧
    NextToken (NewLexer (("\"line\\nbreak\"").data)) =
      (⟨.String, String.mk ('l' :: 'i' :: 'n' :: 'e' :: Char.ofNat 10 ::
        'b' :: 'r' :: 'e' :: 'a' :: 'k' :: [])⟩, ⟨[], nulChar, true⟩) ∧
    validate ("\x7b\"a\": \"line\\nbreak\"\x7d") = .ok () :=
  ⟨rfl, rfl, rfl⟩

/-- Claim C6: a string whose scan reaches a backslash followed by a character
outside the supported escape set produces a lexical error naming that
character, and the whole validation of a document containing such a string
fails; in particular the bad-escape q document fails naming q. -/
theorem claim_C6 :
    (∀ (pre : List SItem) (c : Char) (cs : List Char),
      validItems pre = true → escDecode c = none →
      (readString (lexAt ('"' :: (renderItems pre ++ '\\' :: c :: cs)))).1 =
        .error (("invalid escape sequence: \\") ++ String.singleton c)) ∧
    validate ("\x7b\"a\": \"bad\\qescape\"\x7d") =
      .error ("invalid value: expected value, got invalid escape sequence: \\q") := by
  exact ⟨fun pre c cs hv hc => readString_badesc pre c cs hv hc, rfl⟩

/-- Witness for C6: the escape backslash-q after the prefix bad. -/
theorem claim_C6_witness :
    validItems [SItem.raw 'b', SItem.raw 'a', SItem.raw 'd'] = true ∧
    escDecode 'q' = none ∧
    (readString (lexAt ('"' :: (renderItems [SItem.raw 'b', SItem.raw 'a', SItem.raw 'd']
        ++ '\\' :: 'q' :: (("escape\"").data))))).1 =
      .error (("invalid escape sequence: \\") ++ String.singleton 'q') :=
  ⟨by decide, by decide, claim_C6.1 _ 'q' _ (by decide) (by decide)⟩

/-- Claim C7: identifier scanning reads the longest run of letters and
underscores and then classifies: exactly true and false yield a Boolean
token, exactly null yields a Null token, and every other identifier yields a
lexical-error token carrying the invalid text; consequently a document with
the partial identifier tru fails validation. -/
theorem claim_C7 :
    (∀ (c : Char) (w rest : List Char), isLetterA c = true →
      (∀ x ∈ w, isLetterA x = true ∨ x = '_') → headNotIdent rest →
      NextToken (lexAt (c :: (w ++ rest))) =
        (if String.mk (c :: w) = ("true") ∨ String.mk (c :: w) = ("false") then
           ⟨.Boolean, String.mk (c :: w)⟩
         else if String.mk (c :: w) = ("null") then ⟨.Null, String.mk (c :: w)⟩
         else ⟨.Error, ("invalid identifier: ") ++ String.mk (c :: w)⟩,
         lexAt rest)) ∧
    validate ("\x7b\"a\": tru\x7d") =
      .error ("invalid value: expected value, got invalid identifier: tru") := by
  exact ⟨fun c w rest hc hw hr => nextToken_identifier c w rest hc hw hr, rfl⟩

/-- Witness for C7 at the identifier tru followed by end of input. -/
theorem claim_C7_witness :
    isLetterA 't' = true ∧
    (∀ x ∈ (['r', 'u'] : List Char), isLetterA x = true ∨ x = '_') ∧
    NextToken (lexAt ('t' :: ((['r', 'u'] : List Char) ++ []))) =
      (if String.mk ('t' :: ['r', 'u']) = ("true") ∨
          String.mk ('t' :: ['r', 'u']) = ("false") then
         ⟨.Boolean, String.mk ('t' :: ['r', 'u'])⟩
       else if String.mk ('t' :: ['r', 'u']) = ("null") then
         ⟨.Null, String.mk ('t' :: ['r', 'u'])⟩
       else ⟨.Error, ("invalid identifier: ") ++ String.mk ('t' :: ['r', 'u'])⟩,
       lexAt []) :=
  ⟨by decide, by decide, claim_C7.1 't' ['r', 'u'] [] (by decide) (by decide) trivial⟩

/-- Claim C8: once the lexer has observed clean end-of-stream (the carried
error is set and the current rune is the NUL marker that readChar stored),
NextToken returns the EndOfInput token and leaves the state unchanged, so
every subsequent call returns EndOfInput again and consumes nothing. -/
theorem claim_C8 : ∀ l : Lexer, l.err = true → l.char = nulChar →
    NextToken l = (⟨.EOF, ""⟩, l) := by
  intro l h1 h2
  obtain ⟨inp, ch, e⟩ := l
  simp only at h1 h2
  subst h1
  subst h2
  cases inp <;> rfl

/-- Witness for C8 at the exhausted-input lexer state. -/
theorem claim_C8_witness :
    (lexAt []).err = true ∧ (lexAt []).char = nulChar ∧
    NextToken (lexAt []) = (⟨.EOF, ""⟩, lexAt []) :=
  ⟨rfl, rfl, claim_C8 (lexAt []) rfl rfl⟩

/-- Claim C9: absent I/O errors, the heuristic checker validJSON returns true
exactly when the file content is non-empty, starts with a left brace, and
ends with a right brace; it inspects no interior content, so a file meeting
these three conditions with malformed interior is reported valid even though
the real parser rejects it. -/
theorem claim_C9 :
    (∀ content : List Char, validJSON content = true ↔
      (content ≠ [] ∧ content.head? = some charLBrace ∧
        content.getLast? = some charRBrace)) ∧
    validJSON (("\x7b]]]\x7d").data) = true ∧
    validate ("\x7b]]]\x7d") = .error (("expected string key, got ") ++ ("]")) := by
  refine ⟨?_, rfl, rfl⟩
  intro content
  simp only [validJSON]
  split_ifs with h1 h2 h3
  · rw [List.length_eq_zero] at h1
    subst h1
    simp
  · simp [h2]
  · simp [h3]
  · simp only [not_not] at h2 h3
    have hne : content ≠ [] := by
      intro h
      subst h
      exact h1 rfl
    simp [hne, h2, h3]

/-- Claim C10: number scanning never produces a lexical error: whenever the
current rune is a digit or a minus, NextToken emits a Number token containing
whatever greedily matched, even when the literal is not a valid JSON number;
a bare minus before a closing brace yields the Number token with literal
minus, and the malformed-number documents all validate successfully. -/
theorem claim_C10 :
    (∀ l : Lexer, l.err = false → (isDigitA l.char = true ∨ l.char = '-') →
      ((NextToken l).1).type = TokenType.Number) ∧
    NextToken (lexAt ('-' :: charRBrace :: [])) =
      (⟨.Number, ("-")⟩, lexAt (charRBrace :: [])) ∧
    validate ("\x7b\"a\":-\x7d") = .ok () ∧
    validate ("\x7b\"a\":1.\x7d") = .ok () ∧
    validate ("\x7b\"a\":3e\x7d") = .ok () := by
  refine ⟨?_, rfl, rfl, rfl, rfl⟩
  intro l he hc
  have hws : isWs l.char = false := by
    rcases hc with h | h
    · exact (digit_facts l.char h).1
    · rw [h]; decide
  have hsw : skipWhitespace l = l := by
    obtain ⟨inp, ch, e⟩ := l
    simp only at hws
    cases inp <;> simp [skipWhitespace, skipWsGo, hws]
  simp only [NextToken]
  rw [hsw]
  rw [if_neg (show ¬(l.err = true) by simp [he])]
  rcases hc with hd | hm
  · obtain ⟨-, h1, h2, h3, h4, h5, h6, h7, -, -, -⟩ := digit_facts l.char hd
    rw [if_neg h1, if_neg h2, if_neg h3, if_neg h4, if_neg h5, if_neg h6, if_neg h7]
    rw [if_pos (show (isDigitA l.char || l.char = '-') = true by simp [hd])]
  · rw [if_neg (show ¬(l.char = charLBrace) by rw [hm]; decide),
      if_neg (show ¬(l.char = charRBrace) by rw [hm]; decide),
      if_neg (show ¬(l.char = '[') by rw [hm]; decide),
      if_neg (show ¬(l.char = ']') by rw [hm]; decide),
      if_neg (show ¬(l.char = ':') by rw [hm]; decide),
      if_neg (show ¬(l.char = ',') by rw [hm]; decide),
      if_neg (show ¬(l.char = '"') by rw [hm]; decide)]
    rw [if_pos (show (isDigitA l.char || l.char = '-') = true by simp [hm])]

/-- Witness for C10 at a lexer state whose current rune is a digit. -/
theorem claim_C10_witness :
    (lexAt ['5']).err = false ∧ isDigitA (lexAt ['5']).char = true ∧
    ((NextToken (lexAt ['5'])).1).type = TokenType.Number :=
  ⟨rfl, by decide, claim_C10.1 (lexAt ['5']) rfl (Or.inl (by decide))⟩
